import Mathlib

/-!
# PantryPal — verification of the item-normalization and list-query pipeline

A shallow embedding of `src/app.py` (PantryPal Basic). The embedded parts:

* the record normalizer `normalize_items`;
* the query pipeline: search filter, category filter, `sort_items`;
* the mutation handlers: add item, remove selected;
* the CSV store: `save_data` / `load_data` (pandas `to_csv` / `read_csv`
  modelled at the cell/column level).

Python `date` objects are modelled by `PDate` (year, month, day, compared
lexicographically, as Python compares dates).  Loosely-typed raw values a
record field may hold are modelled by `RawVal`; a missing key and an explicit
`None` both read back as `Option.none`-like values through `dict.get`, which
the model mirrors.  Machine-level caveats: string functions are modelled over
ASCII (Python's `str.lower`/`str.strip` are Unicode-aware; every string the
theorems touch is ASCII), and `datetime.fromisoformat` is modelled in its
date-`YYYY-MM-DD` (optionally `THH:MM[:SS]`) form.
-/

namespace PantryPal

/-- A Python `datetime.date`: year, month, day.  Python orders dates
lexicographically by (year, month, day). -/
structure PDate where
  y : Nat
  m : Nat
  d : Nat
deriving DecidableEq

/-- `date.min` = 0001-01-01. -/
def dateMin : PDate := ⟨1, 1, 1⟩

/-- `date.max` = 9999-12-31. -/
def dateMax : PDate := ⟨9999, 12, 31⟩

/-- `a <= b` on Python dates: lexicographic on (year, month, day). -/
def pdateLe (a b : PDate) : Prop :=
  a.y < b.y ∨ (a.y = b.y ∧ (a.m < b.m ∨ (a.m = b.m ∧ a.d ≤ b.d)))

instance (a b : PDate) : Decidable (pdateLe a b) := by
  unfold pdateLe; infer_instance

/-- Gregorian leap year, as Python's `calendar.isleap`. -/
def isLeap (y : Nat) : Bool :=
  y % 4 = 0 && (y % 100 ≠ 0 || y % 400 = 0)

/-- Days in a month of a given year. -/
def daysInMonth (y m : Nat) : Nat :=
  if m = 2 then (if isLeap y then 29 else 28)
  else if m = 4 ∨ m = 6 ∨ m = 9 ∨ m = 11 then 30
  else 31

/-- A (y, m, d) triple that a Python `date` object can hold. -/
def validDate (y m d : Nat) : Prop :=
  1 ≤ y ∧ y ≤ 9999 ∧ 1 ≤ m ∧ m ≤ 12 ∧ 1 ≤ d ∧ d ≤ daysInMonth y m

instance (y m d : Nat) : Decidable (validDate y m d) := by
  unfold validDate; infer_instance

/-- `PDate.Valid d`: the date is one Python's `date` type can represent. -/
def PDate.Valid (d : PDate) : Prop := validDate d.y d.m d.d

instance (d : PDate) : Decidable d.Valid := by
  unfold PDate.Valid; infer_instance

/-! ## Characters and digit strings -/

/-- Numeric value of an ASCII digit character. -/
def digitVal (c : Char) : Nat := c.toNat - 48

/-- The ASCII digit character for `k < 10` (`'0'` for anything above 9,
never reached). -/
def digitChar (k : Nat) : Char :=
  if k = 1 then '1' else if k = 2 then '2' else if k = 3 then '3'
  else if k = 4 then '4' else if k = 5 then '5' else if k = 6 then '6'
  else if k = 7 then '7' else if k = 8 then '8' else if k = 9 then '9'
  else '0'

/-- Big-endian numeric value of a digit list (leading zeros allowed). -/
def valBE (l : List Char) : Nat :=
  l.foldl (fun acc c => 10 * acc + digitVal c) 0

/-- All characters are ASCII digits. -/
def allDigits (l : List Char) : Bool := l.all Char.isDigit

/-- Little-endian decimal digits of `n`, with explicit fuel (`fuel ≥ n`
suffices); structural recursion so the kernel can evaluate it. -/
def natDigitsAux : Nat → Nat → List Char
  | 0, _ => []
  | fuel + 1, n => if n = 0 then [] else digitChar (n % 10) :: natDigitsAux fuel (n / 10)

/-- Decimal rendering of a natural number, as Python's `str`. -/
def encodeNat (n : Nat) : List Char :=
  if n = 0 then ['0'] else (natDigitsAux (n + 1) n).reverse

/-- Decimal rendering of an integer, as Python's `str`. -/
def encodeInt (n : Int) : String :=
  if n < 0 then ⟨'-' :: encodeNat n.natAbs⟩ else ⟨encodeNat n.toNat⟩

/-! ## Python string helpers: `strip`, `lower` -/

/-- Python's whitespace for `str.strip` (ASCII part). -/
def isPySpace (c : Char) : Bool :=
  c = ' ' || c = '\t' || c = '\n' || c = '\x0d' || c = '\x0b' || c = '\x0c'

/-- `str.strip()` on a character list: drop leading and trailing whitespace. -/
def stripChars (l : List Char) : List Char :=
  ((l.dropWhile isPySpace).reverse.dropWhile isPySpace).reverse

/-- Python `s.strip()`. -/
def pyStrip (s : String) : String := ⟨stripChars s.data⟩

/-- Python `s.lower()` (ASCII). -/
def pyLower (s : String) : String := ⟨s.data.map Char.toLower⟩

/-- `leadsList p l`: `l` starts with `p`. -/
def leadsList : List Char → List Char → Bool
  | [], _ => true
  | _ :: _, [] => false
  | a :: as, b :: bs => a == b && leadsList as bs

/-- `hasSub p l`: `p` occurs contiguously in `l` — Python's `p in l` on
strings. -/
def hasSub (p : List Char) : List Char → Bool
  | [] => p.isEmpty
  | c :: t => leadsList p (c :: t) || hasSub p t

/-- Python `needle in haystack` for strings. -/
def pyIn (needle haystack : String) : Bool := hasSub needle.data haystack.data

/-! ## Date-string parsing: `datetime.fromisoformat`, `strptime "%Y-%m-%d"` -/

/-- The optional time tail `datetime.fromisoformat` accepts after the date:
empty, or a separator (`'T'` or `' '`) followed by `HH:MM` or `HH:MM:SS`. -/
def isoTimeTailOk : List Char → Bool
  | [] => true
  | sep :: h1 :: h2 :: ':' :: m1 :: m2 :: rest =>
      (sep == 'T' || sep == ' ') &&
      allDigits [h1, h2, m1, m2] &&
      valBE [h1, h2] < 24 && valBE [m1, m2] < 60 &&
      (match rest with
       | [] => true
       | ':' :: s1 :: s2 :: [] => allDigits [s1, s2] && valBE [s1, s2] < 60
       | _ => false)
  | _ => false

/-- `datetime.fromisoformat(s).date()`: a `YYYY-MM-DD` date (zero-padded,
dash-separated) optionally followed by a time part; `none` when the parse
raises `ValueError`. -/
def fromisoformat (s : String) : Option PDate :=
  match s.data with
  | y1 :: y2 :: y3 :: y4 :: '-' :: m1 :: m2 :: '-' :: d1 :: d2 :: rest =>
      let y := valBE [y1, y2, y3, y4]
      let mo := valBE [m1, m2]
      let dy := valBE [d1, d2]
      if allDigits [y1, y2, y3, y4, m1, m2, d1, d2] ∧ validDate y mo dy ∧
          isoTimeTailOk rest then
        some ⟨y, mo, dy⟩
      else none
  | _ => none

/-- The month/day part of `strptime "%Y-%m-%d"`: CPython's `%m`/`%d`
accept one or two digits; the whole string must be consumed. -/
def strpMonthDay (l : List Char) (y : Nat) : Option PDate :=
  match l with
  | m1 :: '-' :: rest =>
      match rest with
      | [d1] =>
          if allDigits [m1, d1] ∧ validDate y (valBE [m1]) (valBE [d1]) then
            some ⟨y, valBE [m1], valBE [d1]⟩
          else none
      | [d1, d2] =>
          if allDigits [m1, d1, d2] ∧ validDate y (valBE [m1]) (valBE [d1, d2]) then
            some ⟨y, valBE [m1], valBE [d1, d2]⟩
          else none
      | _ => none
  | m1 :: m2 :: '-' :: rest =>
      match rest with
      | [d1] =>
          if allDigits [m1, m2, d1] ∧ validDate y (valBE [m1, m2]) (valBE [d1]) then
            some ⟨y, valBE [m1, m2], valBE [d1]⟩
          else none
      | [d1, d2] =>
          if allDigits [m1, m2, d1, d2] ∧
              validDate y (valBE [m1, m2]) (valBE [d1, d2]) then
            some ⟨y, valBE [m1, m2], valBE [d1, d2]⟩
          else none
      | _ => none
  | _ => none

/-- `datetime.strptime(s, "%Y-%m-%d").date()`: CPython's `%Y` here matches
exactly four digits; `none` when the parse raises `ValueError`. -/
def strptimeYMD (s : String) : Option PDate :=
  match s.data with
  | y1 :: y2 :: y3 :: y4 :: '-' :: rest =>
      if allDigits [y1, y2, y3, y4] then
        strpMonthDay rest (valBE [y1, y2, y3, y4])
      else none
  | _ => none

/-! ## Raw (loosely-typed) record values and the canonical item -/

/-- A loosely-typed Python value a record field may hold at the call sites of
`normalize_items`: a string, an int, `None` stored as a value, or a date. -/
inductive RawVal where
  | str (s : String)
  | int (n : Int)
  | noneV
  | dateV (d : PDate)
deriving DecidableEq

/-- A raw `expiry` value: a string, a `date`, or a `datetime`
(date plus time-of-day). -/
inductive ExpRaw where
  | str (s : String)
  | dateV (d : PDate)
  | datetimeV (d : PDate) (hh mm ss : Nat)
deriving DecidableEq

/-- A raw record handed to `normalize_items`: each field as
`dict.get` sees it — `none` when the key is absent. -/
structure RawItem where
  name : Option RawVal
  quantity : Option RawVal
  category : Option RawVal
  expiry : Option ExpRaw
deriving DecidableEq

/-- ISO rendering of a date, `str(date)`: zero-padded `YYYY-MM-DD`. -/
def padNat (width n : Nat) : List Char :=
  List.replicate (width - (encodeNat n).length) '0' ++ encodeNat n

/-- `date.isoformat()`. -/
def isoDate (d : PDate) : String :=
  ⟨padNat 4 d.y ++ '-' :: (padNat 2 d.m ++ '-' :: padNat 2 d.d)⟩

/-- Python `str(v)` on a raw value. -/
def pyStr (v : RawVal) : String :=
  match v with
  | .str s => s
  | .int n => encodeInt n
  | .noneV => "None"
  | .dateV d => isoDate d

/-- Digits possibly grouped by single underscores, as Python's `int(str)`
accepts between digits (`"1_0"` parses, `"1__0"`, `"_1"`, `"1_"` do not). -/
def intLitDigits : List Char → Bool
  | [] => false
  | [c] => c.isDigit
  | c :: '_' :: rest => c.isDigit && intLitDigits rest
  | c :: rest => c.isDigit && intLitDigits rest

/-- Value of such a digit group (underscores skipped). -/
def intLitVal (l : List Char) : Nat := valBE (l.filter (· ≠ '_'))

/-- Python `int(s)` on a string: optional surrounding whitespace, optional
sign, then digits; `none` models the `ValueError` it raises. -/
def pyIntOfStr (s : String) : Option Int :=
  match stripChars s.data with
  | '-' :: ds => if intLitDigits ds then some (-(intLitVal ds : Int)) else none
  | '+' :: ds => if intLitDigits ds then some (intLitVal ds : Int) else none
  | ds => if intLitDigits ds then some (intLitVal ds : Int) else none

/-- Python `int(v)` on a raw value: ints pass through, strings parse,
`None` and dates raise `TypeError` (modelled as `none`). -/
def pyToInt (v : RawVal) : Option Int :=
  match v with
  | .int n => some n
  | .str s => pyIntOfStr s
  | .noneV => none
  | .dateV _ => none

/-- The canonical item record `normalize_items` produces and the Store holds. -/
structure Item where
  name : String
  quantity : Int
  category : String
  expiry : Option PDate
deriving DecidableEq

/-! ## `normalize_items` (src/app.py lines 31–50) -/

/-- Python `it.get("quantity") != ""`: only a string compares equal to a
string in Python, so anything but the value `""` is unequal to `""`. -/
def qtyNeEmptyStr (v : Option RawVal) : Bool :=
  match v with
  | some (.str s) => !(s == "")
  | _ => true

/-- The `quantity` line of `normalize_items`:
`int(it.get("quantity", 0)) if it.get("quantity") != "" else 0`;
`none` models the exception `int(...)` raises. -/
def normalizeQty (v : Option RawVal) : Option Int :=
  if qtyNeEmptyStr v then pyToInt (v.getD (.int 0)) else some 0

/-- The `expiry` handling of `normalize_items`: strings go through
`fromisoformat`, then `strptime "%Y-%m-%d"`, then fall back to today;
`datetime` values are truncated to their date; everything else (here: a
missing value) passes through unchanged.  Total: no exception escapes. -/
def normalizeExpiry (today : PDate) (e : Option ExpRaw) : Option PDate :=
  match e with
  | none => none
  | some (.str s) =>
      some (match fromisoformat s with
            | some d => d
            | none =>
                match strptimeYMD s with
                | some d => d
                | none => today)
  | some (.dateV d) => some d
  | some (.datetimeV d _ _ _) => some d

/-- One record of `normalize_items`; `none` models the uncaught
exception `int(...)` may raise on the quantity field. -/
def normalizeOne (today : PDate) (it : RawItem) : Option Item := do
  let qty ← normalizeQty it.quantity
  pure { name := pyStrip (pyStr (it.name.getD (.str "")))
         quantity := qty
         category := pyStrip (pyStr (it.category.getD (.str "")))
         expiry := normalizeExpiry today it.expiry }

/-- `normalize_items` (src/app.py lines 31–50), parameterized by
`date.today()`; `none` models an uncaught exception escaping the call
(possible only from the quantity coercion). -/
def normalize_items (today : PDate) : List RawItem → Option (List Item)
  | [] => some []
  | it :: rest =>
      match normalizeOne today it, normalize_items today rest with
      | some r, some rs => some (r :: rs)
      | _, _ => none

/-! ## Python's `sorted`

CPython's `sorted(items, key=k)` is the stable ascending sort by `k`;
`sorted(items, key=k, reverse=True)` is the stable descending sort (ties keep
their original order).  Both are realised here by a stable insertion sort:
`pySorted le` places a new element *before* the first kept element `b` with
`¬ le a b`, so an earlier element precedes every tie — exactly CPython's
stability contract.  `reverse=True` is `pySorted (fun a b => le b a)`. -/

/-- Insert `a` into `l`, keeping every `b` with `le a b = false` before it. -/
def orderedInsertB (le : Item → Item → Bool) (a : Item) : List Item → List Item
  | [] => [a]
  | b :: l => if le a b then a :: b :: l else b :: orderedInsertB le a l

/-- Stable insertion sort by a boolean `le`. -/
def pySorted (le : Item → Item → Bool) : List Item → List Item
  | [] => []
  | a :: l => orderedInsertB le a (pySorted le l)

/-- The first component of the sort key
`(x.get("expiry") is None, …)`: Python's `False < True` is `0 < 1`. -/
def noneBit (e : Option PDate) : Nat :=
  match e with
  | none => 1
  | some _ => 0

/-- Key order for `"Expiry (soonest)"`:
`(x.get("expiry") is None, x.get("expiry") or date.max)`, compared
lexicographically (ascending). -/
def leSoonest (a b : Item) : Prop :=
  noneBit a.expiry < noneBit b.expiry ∨
    (noneBit a.expiry = noneBit b.expiry ∧
      pdateLe (a.expiry.getD dateMax) (b.expiry.getD dateMax))

instance (a b : Item) : Decidable (leSoonest a b) := by
  unfold leSoonest; infer_instance

/-- Key order for `"Expiry (latest)"` before `reverse=True` is applied:
`(x.get("expiry") is None, x.get("expiry") or date.min)` ascending. -/
def leLatestKey (a b : Item) : Prop :=
  noneBit a.expiry < noneBit b.expiry ∨
    (noneBit a.expiry = noneBit b.expiry ∧
      pdateLe (a.expiry.getD dateMin) (b.expiry.getD dateMin))

instance (a b : Item) : Decidable (leLatestKey a b) := by
  unfold leLatestKey; infer_instance

/-- Lean's `String ≤` is lexicographic by character code point, as Python's
string comparison; used on lower-cased names. -/
def leNameAZ (a b : Item) : Bool := decide (pyLower a.name ≤ pyLower b.name)

/-- `sort_items` (src/app.py lines 100–111): five recognized modes, any
other mode returns the list unchanged. -/
def sort_items (items : List Item) (mode : String) : List Item :=
  if mode = "Expiry (soonest)" then
    pySorted (fun a b => decide (leSoonest a b)) items
  else if mode = "Expiry (latest)" then
    pySorted (fun a b => decide (leLatestKey b a)) items
  else if mode = "Name A→Z" then
    pySorted leNameAZ items
  else if mode = "Name Z→A" then
    pySorted (fun a b => leNameAZ b a) items
  else if mode = "Quantity descending" then
    pySorted (fun a b => decide (b.quantity ≤ a.quantity)) items
  else items

/-! ## Search and category filters (src/app.py lines 93–97) -/

/-- The search step: skipped when the search text is empty (falsy), else
keeps items whose lower-cased name contains the lower-cased search text. -/
def searchFilter (searchText : String) (items : List Item) : List Item :=
  if searchText = "" then items
  else items.filter (fun it => pyIn (pyLower searchText) (pyLower it.name))

/-- The category step: skipped when the choice is empty (falsy) or `"All"`,
else keeps items whose category matches case-insensitively. -/
def catFilter (catChoice : String) (items : List Item) : List Item :=
  if catChoice = "" ∨ catChoice = "All" then items
  else items.filter (fun it => pyLower it.category == pyLower catChoice)

/-- The display pipeline (src/app.py lines 93–113): search, then category
filter, then sort. -/
def display_items (items : List Item) (searchText catChoice sortChoice : String) :
    List Item :=
  sort_items (catFilter catChoice (searchFilter searchText items)) sortChoice

/-! ## The CSV store: `save_data` / `load_data` (src/app.py lines 13–29)

The backing file is modelled structurally: a list of rows, one cell per
column, each cell the text pandas `to_csv` writes (CSV quoting is lossless,
so the quoting layer is elided).  `read_csv` is modelled per column, the way
pandas infers column types: a column whose cells all parse as integers
becomes an int column; otherwise all-float → floats, all-boolean → booleans;
otherwise cells stay text, except that an empty cell or a default NA marker
becomes `NaN`.  The `expiry` column is parsed as dates
(`parse_dates=["expiry"]` plus the explicit `pd.to_datetime`), which raises —
caught by `load_data`, which then returns `[]` — when a cell is not a date in
pandas `Timestamp` range (1677-09-21 .. 2262-04-11). -/

/-- A typed value a cell holds after `read_csv`'s column inference. -/
inductive CellVal where
  | str (s : String)
  | int (n : Int)
  | nan
  | bool (b : Bool)
  | floatRepr (s : String)
deriving DecidableEq

/-- One row of the backing CSV file, columns `name,quantity,category,expiry`. -/
structure Row where
  nameC : String
  quantityC : String
  categoryC : String
  expiryC : String
deriving DecidableEq

/-- The backing file: its data rows (the fixed header is implicit). -/
def CSVFile := List Row

instance : DecidableEq CSVFile := by
  unfold CSVFile; infer_instance

/-- The `expiry` cell `to_csv` writes: ISO date, or empty for `None`/`NaT`. -/
def encodeExpiry (e : Option PDate) : String :=
  match e with
  | some d => isoDate d
  | none => ""

/-- `save_data` (src/app.py lines 24–29): full rewrite of the file, one row
per item, dates in ISO form, quantity as plain integer text. -/
def save_data (items : List Item) : CSVFile :=
  items.map fun it =>
    { nameC := it.name
      quantityC := encodeInt it.quantity
      categoryC := it.category
      expiryC := encodeExpiry it.expiry }

/-- pandas' default NA markers (`read_csv` turns such cells into `NaN`). -/
def naMarkers : List String :=
  ["", "#N/A", "#N/A N/A", "#NA", "-1.#IND", "-1.#QNAN", "-NaN", "-nan",
   "1.#IND", "1.#QNAN", "<NA>", "N/A", "NA", "NULL", "NaN", "None",
   "n/a", "nan", "null"]

/-- Cell is an NA marker. -/
def isNACell (s : String) : Bool := naMarkers.contains s

/-- Cell parses as an integer (optional sign, digits). -/
def parseIntCell (s : String) : Option Int :=
  match s.data with
  | [] => none
  | c :: ds =>
      if c = '-' then
        (if ds ≠ [] ∧ allDigits ds then some (-(valBE ds : Int)) else none)
      else if c = '+' then
        (if ds ≠ [] ∧ allDigits ds then some (valBE ds : Int) else none)
      else if allDigits (c :: ds) then some (valBE (c :: ds) : Int) else none

/-- The exponent part of a float cell, after `e`/`E`: an optional sign then
at least one digit. -/
def expTail (l : List Char) : Bool :=
  match l with
  | '+' :: ds => !ds.isEmpty && allDigits ds
  | '-' :: ds => !ds.isEmpty && allDigits ds
  | ds => !ds.isEmpty && allDigits ds

/-- The fractional part of a float cell, after the decimal point: digits,
optionally followed by an exponent; `seen` records whether a mantissa digit
has appeared yet (pandas accepts `"5."` and `".5"` but not `"."`). -/
def floatFrac : List Char → Bool → Bool
  | [], seen => seen
  | c :: rest, seen =>
      if c = 'e' ∨ c = 'E' then seen && expTail rest
      else c.isDigit && floatFrac rest true

/-- The integer part of a float cell: digits, then optionally a decimal
point and/or an exponent. -/
def floatMantissa : List Char → Bool → Bool
  | [], seen => seen
  | c :: rest, seen =>
      if c = '.' then floatFrac rest seen
      else if c = 'e' ∨ c = 'E' then seen && expTail rest
      else c.isDigit && floatMantissa rest true

/-- `"inf"` or `"infinity"`, case-insensitive, as pandas' float converter
recognizes after the optional sign. -/
def isInfWord (l : List Char) : Bool :=
  let u := l.map Char.toUpper
  u == ['I', 'N', 'F'] || u == ['I', 'N', 'F', 'I', 'N', 'I', 'T', 'Y']

/-- Cell parses as a float the way pandas `read_csv` does: an optional sign,
then either digits with an optional decimal point on either side
(`"5"`, `"5."`, `".5"`, `"5.5"`) optionally followed by a scientific
exponent (`"1e5"`, `"1.2E-3"`), or an infinity word (`"inf"`,
`"Infinity"`). -/
def isFloatCell (s : String) : Bool :=
  match s.data with
  | '-' :: ds => isInfWord ds || floatMantissa ds false
  | '+' :: ds => isInfWord ds || floatMantissa ds false
  | ds => isInfWord ds || floatMantissa ds false

/-- Cell is one of the boolean literals pandas recognizes. -/
def isBoolCell (s : String) : Bool :=
  s == "True" || s == "TRUE" || s == "False" || s == "FALSE"

/-- pandas `read_csv` column inference for a non-date column. -/
def decodeStrColumn (cells : List String) : List CellVal :=
  if cells.all (fun c => (parseIntCell c).isSome) then
    cells.map fun c => .int ((parseIntCell c).getD 0)
  else if cells.all isFloatCell then
    cells.map .floatRepr
  else if cells.all isBoolCell then
    cells.map fun c => .bool (c == "True" || c == "TRUE")
  else
    cells.map fun c => if isNACell c then .nan else .str c

/-- pandas `Timestamp` lower bound as a date (1677-09-21 itself converts to a
midnight below `Timestamp.min`, so the first representable date is the
22nd). -/
def tsMin : PDate := ⟨1677, 9, 22⟩

/-- pandas `Timestamp` upper bound as a date. -/
def tsMax : PDate := ⟨2262, 4, 11⟩

/-- One `expiry` cell through `to_datetime`: empty → `NaT` (kept as `none`),
an ISO date within `Timestamp` range → that date, anything else raises. -/
def decodeDateCell (s : String) : Option (Option PDate) :=
  if s = "" then some none
  else
    match fromisoformat s with
    | some d =>
        if pdateLe tsMin d ∧ pdateLe d tsMax then some (some d) else none
    | none => none

/-- The whole `expiry` column; `none` when `to_datetime` raises. -/
def decodeDates : List String → Option (List (Option PDate))
  | [] => some []
  | c :: rest =>
      match decodeDateCell c, decodeDates rest with
      | some v, some vs => some (v :: vs)
      | _, _ => none

/-- A record as `load_data` returns it (`df.to_dict("records")`). -/
structure LoadedItem where
  name : CellVal
  quantity : CellVal
  category : CellVal
  expiry : Option PDate
deriving DecidableEq

/-- Reassemble rows from the four decoded columns. -/
def zip4 : List CellVal → List CellVal → List CellVal → List (Option PDate) →
    List LoadedItem
  | n :: ns, q :: qs, c :: cs, e :: es => ⟨n, q, c, e⟩ :: zip4 ns qs cs es
  | _, _, _, _ => []

/-- `load_data` (src/app.py lines 13–22) on an existing file: reads and
type-infers the four columns, parsing `expiry` as dates; any read/parse
failure is caught and yields `[]`. -/
def load_data (f : CSVFile) : List LoadedItem :=
  match decodeDates (f.map Row.expiryC) with
  | none => []
  | some exps =>
      zip4 (decodeStrColumn (f.map Row.nameC))
        (decodeStrColumn (f.map Row.quantityC))
        (decodeStrColumn (f.map Row.categoryC)) exps

/-- The `LoadedItem` that a round trip of a canonical `Item` should give
back: each text field read back as text, quantity as an integer. -/
def loadedOfItem (it : Item) : LoadedItem :=
  ⟨.str it.name, .int it.quantity, .str it.category, it.expiry⟩

/-- A string cell that `read_csv` gives back as the same text: not an NA
marker (in particular not empty), and not integer-, float- or boolean-like,
so no column containing it is numerically inferred. -/
def textCell (s : String) : Prop :=
  isNACell s = false ∧ parseIntCell s = none ∧ isFloatCell s = false ∧
  isBoolCell s = false

instance (s : String) : Decidable (textCell s) := by
  unfold textCell; infer_instance

/-- An expiry that survives the round trip: a concrete, valid date within
pandas `Timestamp` range. -/
def goodExpiry : Option PDate → Prop
  | some d => d.Valid ∧ pdateLe tsMin d ∧ pdateLe d tsMax
  | none => False

instance : (e : Option PDate) → Decidable (goodExpiry e)
  | some _ => by unfold goodExpiry; infer_instance
  | none => by unfold goodExpiry; infer_instance

/-- A record whose every field reads back from CSV exactly as saved. -/
def goodRecord (it : Item) : Prop :=
  textCell it.name ∧ textCell it.category ∧ 0 ≤ it.quantity ∧
  goodExpiry it.expiry

instance (it : Item) : Decidable (goodRecord it) := by
  unfold goodRecord; infer_instance

/-! ## The Store and the mutation handlers -/

/-- The session state plus its backing file: `file = none` models an absent
`pantry_data.csv`. -/
structure Store where
  items : List Item
  file : Option CSVFile
deriving DecidableEq

/-- Outcome a handler signals to the UI. -/
inductive Outcome where
  | warning
  | success
deriving DecidableEq

/-- The add-item form handler (src/app.py lines 68–80): an empty-after-trim
name is rejected with a warning and nothing changes; otherwise the trimmed
record is appended and the whole list is saved at once. -/
def add_item (st : Store) (name : String) (qty : Int) (category : String)
    (expiry : PDate) : Store × Outcome :=
  if pyStrip name = "" then (st, .warning)
  else
    let ni := st.items ++
      [{ name := pyStrip name, quantity := qty, category := pyStrip category,
         expiry := some expiry }]
    ({ items := ni, file := some (save_data ni) }, .success)

/-- The remove-selected handler (src/app.py lines 150–160): with nothing
selected, a warning and no change; otherwise every item value-equal
(`it not in to_delete_indices`, full-record equality) to a selected record is
dropped and the remainder saved. -/
def remove_selected (st : Store) (toDelete : List Item) : Store × Outcome :=
  if toDelete = [] then (st, .warning)
  else
    let ni := st.items.filter fun it => !(toDelete.contains it)
    ({ items := ni, file := some (save_data ni) }, .success)

/-- The items of the worked sorting example: A expires 2025-01-01. -/
def exA : Item := ⟨"A", 1, "", some ⟨2025, 1, 1⟩⟩

/-- B has no expiry. -/
def exB : Item := ⟨"B", 1, "", none⟩

/-- C expires 2024-06-01. -/
def exC : Item := ⟨"C", 1, "", some ⟨2024, 6, 1⟩⟩

/-! # Theorems -/

/-! ## Stable sort: sortedness of `pySorted` -/

theorem mem_orderedInsertB (le : Item → Item → Bool) (a : Item) (l : List Item)
    (x : Item) (hx : x ∈ orderedInsertB le a l) : x = a ∨ x ∈ l := by
  induction l with
  | nil =>
      simp only [orderedInsertB, List.mem_singleton] at hx
      exact Or.inl hx
  | cons b t ih =>
      simp only [orderedInsertB] at hx
      by_cases h : le a b = true
      · rw [if_pos h] at hx
        rcases List.mem_cons.mp hx with rfl | h1
        · exact Or.inl rfl
        · exact Or.inr h1
      · rw [if_neg h] at hx
        rcases List.mem_cons.mp hx with rfl | h1
        · exact Or.inr (List.mem_cons_self x t)
        · rcases ih h1 with h2 | h2
          · exact Or.inl h2
          · exact Or.inr (List.mem_cons_of_mem b h2)

theorem pairwise_orderedInsertB (le : Item → Item → Bool)
    (total : ∀ a b, le a b = true ∨ le b a = true)
    (trans : ∀ a b c, le a b = true → le b c = true → le a c = true)
    (a : Item) (l : List Item) (h : l.Pairwise (fun x y => le x y = true)) :
    (orderedInsertB le a l).Pairwise (fun x y => le x y = true) := by
  induction l with
  | nil => simp [orderedInsertB]
  | cons b t ih =>
      rcases List.pairwise_cons.mp h with ⟨hb, ht⟩
      simp only [orderedInsertB]
      by_cases hle : le a b = true
      · rw [if_pos hle]
        refine List.pairwise_cons.mpr ⟨?_, h⟩
        intro y hy
        rcases List.mem_cons.mp hy with rfl | hyt
        · exact hle
        · exact trans a b y hle (hb y hyt)
      · rw [if_neg hle]
        refine List.pairwise_cons.mpr ⟨?_, ih ht⟩
        intro y hy
        rcases mem_orderedInsertB le a t y hy with rfl | hyt
        · rcases total y b with h1 | h1
          · exact absurd h1 hle
          · exact h1
        · exact hb y hyt

theorem pairwise_pySorted (le : Item → Item → Bool)
    (total : ∀ a b, le a b = true ∨ le b a = true)
    (trans : ∀ a b c, le a b = true → le b c = true → le a c = true)
    (l : List Item) : (pySorted le l).Pairwise (fun x y => le x y = true) := by
  induction l with
  | nil => simp [pySorted]
  | cons a t ih => exact pairwise_orderedInsertB le total trans a (pySorted le t) ih

theorem leSoonest_total (a b : Item) : leSoonest a b ∨ leSoonest b a := by
  unfold leSoonest pdateLe
  omega

theorem leSoonest_trans (a b c : Item) (h1 : leSoonest a b) (h2 : leSoonest b c) :
    leSoonest a c := by
  unfold leSoonest pdateLe at *
  omega

theorem leLatestKey_total (a b : Item) : leLatestKey a b ∨ leLatestKey b a := by
  unfold leLatestKey pdateLe
  omega

theorem leLatestKey_trans (a b c : Item) (h1 : leLatestKey a b)
    (h2 : leLatestKey b c) : leLatestKey a c := by
  unfold leLatestKey pdateLe at *
  omega

/-- C1, as the spec states it, is false: under `"Expiry (latest)"`
(`reverse=True` applied to the key `(expiry is None, expiry or date.min)`)
the record with missing expiry sorts FIRST, not last, because the leading
`is None` boolean is the largest component under a reversed comparison.  On
the spec's own example the code gives `[B, A, C]`, not `[A, C, B]`. -/
theorem sort_latest_puts_none_first_cex :
    sort_items [exA, exB, exC] "Expiry (latest)" = [exB, exA, exC] ∧
    sort_items [exA, exB, exC] "Expiry (latest)" ≠ [exA, exC, exB] := by
  constructor
  · decide
  · decide

/-- C1 (amended): `"Expiry (soonest)"` places every record with missing
expiry at the end of the result, and the example sorts to `[C, A, B]`;
`"Expiry (latest)"` instead places every record with missing expiry at the
beginning, and the example sorts to `[B, A, C]`.  The end/beginning placement
is stated as: no earlier record's expiry is `none` while a later one's is
concrete (respectively the reverse). -/
theorem sort_items_expiry_none_placement (items : List Item) :
    ((sort_items items "Expiry (soonest)").Pairwise
      (fun a b => a.expiry = none → b.expiry = none)) ∧
    ((sort_items items "Expiry (latest)").Pairwise
      (fun a b => b.expiry = none → a.expiry = none)) ∧
    sort_items [exA, exB, exC] "Expiry (soonest)" = [exC, exA, exB] ∧
    sort_items [exA, exB, exC] "Expiry (latest)" = [exB, exA, exC] := by
  refine ⟨?_, ?_, by decide, by decide⟩
  · have h : (sort_items items "Expiry (soonest)").Pairwise
        (fun x y => decide (leSoonest x y) = true) := by
      show (pySorted _ items).Pairwise _
      exact pairwise_pySorted _
        (fun a b => by
          rcases leSoonest_total a b with h | h
          · exact Or.inl (decide_eq_true h)
          · exact Or.inr (decide_eq_true h))
        (fun a b c h1 h2 =>
          decide_eq_true (leSoonest_trans a b c (of_decide_eq_true h1)
            (of_decide_eq_true h2)))
        items
    refine h.imp ?_
    intro a b hab ha
    have hle : leSoonest a b := of_decide_eq_true hab
    cases hb : b.expiry with
    | none => rfl
    | some d =>
        exfalso
        unfold leSoonest at hle
        rw [ha, hb] at hle
        simp only [noneBit] at hle
        omega
  · have h : (sort_items items "Expiry (latest)").Pairwise
        (fun x y => decide (leLatestKey y x) = true) := by
      show (pySorted _ items).Pairwise _
      exact pairwise_pySorted _
        (fun a b => by
          rcases leLatestKey_total b a with h | h
          · exact Or.inl (decide_eq_true h)
          · exact Or.inr (decide_eq_true h))
        (fun a b c h1 h2 =>
          decide_eq_true (leLatestKey_trans c b a (of_decide_eq_true h2)
            (of_decide_eq_true h1)))
        items
    refine h.imp ?_
    intro a b hab hb
    have hle : leLatestKey b a := of_decide_eq_true hab
    cases ha : a.expiry with
    | none => rfl
    | some d =>
        exfalso
        unfold leLatestKey at hle
        rw [ha, hb] at hle
        simp only [noneBit] at hle
        omega

/-- C10: `sort_items` with a mode that is none of the five recognized ones
returns the input list unchanged, in its original order. -/
theorem sort_items_unknown_mode (items : List Item) (mode : String)
    (h1 : mode ≠ "Expiry (soonest)") (h2 : mode ≠ "Expiry (latest)")
    (h3 : mode ≠ "Name A→Z") (h4 : mode ≠ "Name Z→A")
    (h5 : mode ≠ "Quantity descending") :
    sort_items items mode = items := by
  unfold sort_items
  rw [if_neg h1, if_neg h2, if_neg h3, if_neg h4, if_neg h5]

/-- Witness for C10 at the concrete mode `"by name"`. -/
theorem sort_items_unknown_mode_witness :
    sort_items [exA, exB, exC] "by name" = [exA, exB, exC] :=
  sort_items_unknown_mode [exA, exB, exC] "by name" (by decide) (by decide)
    (by decide) (by decide) (by decide)

/-! ## Search and category filters -/

theorem hasSub_nil (l : List Char) : hasSub [] l = true := by
  cases l with
  | nil => rfl
  | cons c t => simp [hasSub, leadsList]

/-- C7: the search step keeps exactly the items whose name contains the
search text case-insensitively (stated as equality with the corresponding
`filter`, which keeps order and multiplicity), an empty search text keeps
every item, and an item named `"Olive Oil"` matches search text `"oil"`. -/
theorem searchFilter_characterization (searchText : String) (items : List Item) :
    searchFilter searchText items
      = items.filter (fun it => pyIn (pyLower searchText) (pyLower it.name)) ∧
    searchFilter "" items = items ∧
    searchFilter "oil" [⟨"Olive Oil", 3, "Pantry", none⟩]
      = [⟨"Olive Oil", 3, "Pantry", none⟩] := by
  refine ⟨?_, by simp [searchFilter], by decide⟩
  by_cases h : searchText = ""
  · subst h
    rw [searchFilter, if_pos rfl, eq_comm, List.filter_eq_self]
    intro a _
    exact hasSub_nil _
  · rw [searchFilter, if_neg h]

/-- C8: the search filter and the category filter commute — applying them in
either order gives the same list — and `display_items` applies both of them
(search first) before sorting. -/
theorem filters_commute_and_apply_before_sort (items : List Item)
    (s c m : String) :
    searchFilter s (catFilter c items) = catFilter c (searchFilter s items) ∧
    display_items items s c m
      = sort_items (catFilter c (searchFilter s items)) m := by
  refine ⟨?_, rfl⟩
  unfold searchFilter catFilter
  by_cases hs : s = ""
  · rw [if_pos hs, if_pos hs]
  · rw [if_neg hs, if_neg hs]
    by_cases hc : c = "" ∨ c = "All"
    · rw [if_pos hc, if_pos hc]
    · rw [if_neg hc, if_neg hc, List.filter_comm]

/-! ## Mutation handlers -/

/-- C5: with a non-empty selection, remove-selected keeps exactly the items
not value-equal to any selected record (the `filter`), so every occurrence of
a selected record is removed — duplicates included — no record outside the
selection changes multiplicity, the survivors keep their original order
(sublist), and the result is saved. -/
theorem remove_selected_spec (st : Store) (sel : List Item) (hsel : sel ≠ []) :
    (remove_selected st sel).1.items
        = st.items.filter (fun it => !(sel.contains it)) ∧
    (∀ x ∈ (remove_selected st sel).1.items, x ∉ sel) ∧
    ((remove_selected st sel).1.items).Sublist st.items ∧
    (∀ x : Item, x ∉ sel →
      ((remove_selected st sel).1.items).count x = st.items.count x) ∧
    (remove_selected st sel).1.file
        = some (save_data ((remove_selected st sel).1.items)) ∧
    (remove_selected st sel).2 = .success := by
  have hres : remove_selected st sel
      = ({ items := st.items.filter (fun it => !(sel.contains it)),
           file := some (save_data (st.items.filter
             (fun it => !(sel.contains it)))) }, .success) := by
    unfold remove_selected
    rw [if_neg hsel]
  rw [hres]
  refine ⟨rfl, ?_, List.filter_sublist _, ?_, rfl, rfl⟩
  · intro x hx
    have := (List.mem_filter.mp hx).2
    simp only [Bool.not_eq_true'] at this
    intro hmem
    rw [show sel.contains x = sel.elem x from rfl, List.elem_iff.mpr hmem] at this
    exact Bool.true_eq_false.mp this
  · intro x hx
    refine List.count_filter ?_
    simp only [Bool.not_eq_true']
    cases h : sel.contains x with
    | false => rfl
    | true =>
        exact absurd (List.elem_iff.mp h) hx

/-- Witness for C5: a selected record occurring twice in the store — both
occurrences are removed, the non-matching record stays. -/
theorem remove_selected_spec_witness :
    (([exA] : List Item) ≠ []) ∧
    (remove_selected ⟨[exA, exB, exA], none⟩ [exA]).1.items = [exB] ∧
    ∀ x ∈ (remove_selected ⟨[exA, exB, exA], none⟩ [exA]).1.items,
      x ∉ ([exA] : List Item) :=
  ⟨by decide, by decide,
    (remove_selected_spec ⟨[exA, exB, exA], none⟩ [exA] (by decide)).2.1⟩

/-- C6: adding with an empty-after-trim name leaves the whole store (items
and file) unchanged and signals a warning; adding with a non-empty trimmed
name appends exactly that one normalized record and immediately saves the
new list. -/
theorem add_item_spec (st : Store) (name : String) (qty : Int)
    (category : String) (expiry : PDate) :
    (pyStrip name = "" →
      add_item st name qty category expiry = (st, .warning)) ∧
    (pyStrip name ≠ "" →
      (add_item st name qty category expiry).1.items
          = st.items
              ++ [⟨pyStrip name, qty, pyStrip category, some expiry⟩] ∧
      (add_item st name qty category expiry).1.file
          = some (save_data ((add_item st name qty category expiry).1.items)) ∧
      (add_item st name qty category expiry).2 = .success) := by
  constructor
  · intro h
    unfold add_item
    rw [if_pos h]
  · intro h
    unfold add_item
    rw [if_neg h]
    exact ⟨rfl, rfl, rfl⟩

/-- Witness for C6: a whitespace-only name is rejected with no change; the
name `" Milk "` is trimmed, appended and saved. -/
theorem add_item_spec_witness :
    (add_item ⟨[exA], none⟩ "  " 1 "Dairy" ⟨2025, 3, 4⟩
        = (⟨[exA], none⟩, .warning)) ∧
    (add_item ⟨[exA], none⟩ " Milk " 2 " Dairy " ⟨2025, 3, 4⟩).1.items
        = [exA] ++ [⟨"Milk", 2, "Dairy", some ⟨2025, 3, 4⟩⟩] :=
  ⟨(add_item_spec ⟨[exA], none⟩ "  " 1 "Dairy" ⟨2025, 3, 4⟩).1 (by decide),
    by
      have h := ((add_item_spec ⟨[exA], none⟩ " Milk " 2 " Dairy "
        ⟨2025, 3, 4⟩).2 (by decide)).1
      rw [h]
      decide⟩

/-! ## `str.strip` is idempotent (for the normalizer's idempotence) -/

theorem dropWhile_dropWhile (p : Char → Bool) (l : List Char) :
    (l.dropWhile p).dropWhile p = l.dropWhile p := by
  induction l with
  | nil => rfl
  | cons c t ih =>
      rw [List.dropWhile_cons]
      by_cases h : p c = true
      · rw [if_pos h, ih]
      · rw [if_neg h, List.dropWhile_cons, if_neg h]

theorem dropWhile_head_false (p : Char → Bool) (l : List Char) (c : Char)
    (t : List Char) (h : l.dropWhile p = c :: t) : p c = false := by
  induction l with
  | nil => exact absurd h (by simp)
  | cons a s ih =>
      rw [List.dropWhile_cons] at h
      by_cases ha : p a = true
      · rw [if_pos ha] at h
        exact ih h
      · rw [if_neg ha] at h
        cases h
        exact Bool.not_eq_true _ |>.mp ha

theorem stripChars_idem (l : List Char) :
    stripChars (stripChars l) = stripChars l := by
  unfold stripChars
  set y := l.dropWhile isPySpace with hy
  have hyy : y.dropWhile isPySpace = y := by
    rw [hy, dropWhile_dropWhile]
  -- the right-trim of `y` is a front segment of `y`
  obtain ⟨s, hs⟩ := List.dropWhile_suffix (l := y.reverse) isPySpace
  set R := (y.reverse.dropWhile isPySpace).reverse with hR
  have hyR : y = R ++ s.reverse := by
    have := congrArg List.reverse hs
    rw [List.reverse_append, List.reverse_reverse] at this
    rw [← this, hR]
  -- its left trim is itself: it is empty or starts with y's head
  have hdropR : R.dropWhile isPySpace = R := by
    cases hRc : R with
    | nil => rfl
    | cons c t =>
        have hyc : ∃ t2, y = c :: t2 := by
          refine ⟨t ++ s.reverse, ?_⟩
          rw [hyR, hRc]
          rfl
        obtain ⟨t2, ht2⟩ := hyc
        have hc : isPySpace c = false := by
          refine dropWhile_head_false isPySpace y c t2 ?_
          rw [hyy, ht2]
        rw [List.dropWhile_cons, hc]
        simp
  -- both trims of the already-trimmed list are no-ops
  rw [hdropR, hR, List.reverse_reverse, dropWhile_dropWhile]

theorem pyStrip_idem (s : String) : pyStrip (pyStrip s) = pyStrip s := by
  show (⟨stripChars (stripChars s.data)⟩ : String) = ⟨stripChars s.data⟩
  rw [stripChars_idem]

/-! ## The normalizer: C2, C4, C9 -/

/-- C2, as the spec states it, is false: a record whose raw `expiry` is
missing (or `None`) passes through normalization with `expiry = None` — the
fallback to today's date applies only to unparseable *strings*.  Concrete
input: one record with no expiry key; its normalized expiry is `none`, not a
concrete date. -/
theorem normalize_missing_expiry_cex :
    normalize_items ⟨2025, 10, 12⟩
        [⟨some (.str "Rice"), some (.int 1), some (.str "Grains"), none⟩]
      = some [⟨"Rice", 1, "Grains", none⟩] := by
  decide

/-- C2 (amended): after normalization, `expiry` is always either a concrete
date or `None`: a string that fails both the ISO parse and the `%Y-%m-%d`
parse falls back to today, any present (string/date/datetime) expiry yields a
concrete date, a missing expiry stays `None`, every output record's expiry is
exactly `normalizeExpiry` of its input (and that function is total — no
exception escapes the expiry handling), and `normalize_items` itself only
fails through the quantity coercion, never through expiry. -/
theorem normalize_expiry_fallback_spec (today : PDate) :
    (normalizeExpiry today none = none) ∧
    (∀ s : String, fromisoformat s = none → strptimeYMD s = none →
        normalizeExpiry today (some (.str s)) = some today) ∧
    (∀ e : Option ExpRaw, e ≠ none → (normalizeExpiry today e).isSome = true) ∧
    (∀ items out, normalize_items today items = some out →
        List.Forall₂ (fun (r : Item) (it : RawItem) =>
          r.expiry = normalizeExpiry today it.expiry) out items) ∧
    (∀ items, (∀ r ∈ items, normalizeQty r.quantity ≠ none) →
        normalize_items today items ≠ none) := by
  refine ⟨rfl, ?_, ?_, ?_, ?_⟩
  · intro s h1 h2
    simp [normalizeExpiry, h1, h2]
  · intro e he
    match e with
    | none => exact absurd rfl he
    | some (.str s) => simp [normalizeExpiry]
    | some (.dateV d) => simp [normalizeExpiry]
    | some (.datetimeV d hh mm ss) => simp [normalizeExpiry]
  · intro items
    induction items with
    | nil =>
        intro out h
        cases h
        exact List.Forall₂.nil
    | cons it rest ih =>
        intro out h
        unfold normalize_items at h
        cases hone : normalizeOne today it with
        | none => rw [hone] at h; exact absurd h (by simp)
        | some r =>
            cases hrest : normalize_items today rest with
            | none => rw [hone, hrest] at h; exact absurd h (by simp)
            | some rs =>
                rw [hone, hrest] at h
                cases h
                refine List.forall₂_cons.mpr ⟨?_, ih rs hrest⟩
                unfold normalizeOne at hone
                cases hq : normalizeQty it.quantity with
                | none => rw [hq] at hone; exact absurd hone (by simp)
                | some q =>
                    rw [hq] at hone
                    simp only [Option.bind_eq_bind, Option.some_bind,
                      Option.pure_def, Option.some.injEq] at hone
                    rw [← hone]
  · intro items
    induction items with
    | nil => intro _; simp [normalize_items]
    | cons it rest ih =>
        intro h
        have hq : normalizeQty it.quantity ≠ none :=
          h it (List.mem_cons_self it rest)
        have hone : ∃ r, normalizeOne today it = some r := by
          unfold normalizeOne
          cases hqv : normalizeQty it.quantity with
          | none => exact absurd hqv hq
          | some q => exact ⟨_, rfl⟩
        obtain ⟨r, hr⟩ := hone
        have hrest : normalize_items today rest ≠ none :=
          ih (fun x hx => h x (List.mem_cons_of_mem it hx))
        cases hrv : normalize_items today rest with
        | none => exact absurd hrv hrest
        | some rs =>
            unfold normalize_items
            rw [hr, hrv]
            simp

/-- C4: in normalization, a raw quantity equal to the empty string yields 0,
an absent quantity yields 0, a present raw quantity that `int(...)` cannot
coerce raises (the whole `normalize_items` call errors — fails fast), and an
error can only come from the quantity coercion (expiry, by contrast, never
raises). -/
theorem normalize_quantity_fail_fast :
    (normalizeQty (some (.str "")) = some 0) ∧
    (normalizeQty none = some 0) ∧
    (∀ v : RawVal, qtyNeEmptyStr (some v) = true → pyToInt v = none →
        normalizeQty (some v) = none) ∧
    (∀ today it rest, normalizeQty it.quantity = none →
        normalize_items today (it :: rest) = none) ∧
    (∀ today items, normalize_items today items = none →
        ∃ r ∈ items, normalizeQty r.quantity = none) := by
  refine ⟨by decide, by decide, ?_, ?_, ?_⟩
  · intro v h1 h2
    unfold normalizeQty
    rw [if_pos h1]
    exact h2
  · intro today it rest h
    have hone : normalizeOne today it = none := by
      unfold normalizeOne
      rw [h]
      rfl
    unfold normalize_items
    rw [hone]
  · intro today items
    induction items with
    | nil => intro h; exact absurd h (by simp [normalize_items])
    | cons it rest ih =>
        intro h
        unfold normalize_items at h
        cases hone : normalizeOne today it with
        | none =>
            refine ⟨it, List.mem_cons_self it rest, ?_⟩
            unfold normalizeOne at hone
            cases hq : normalizeQty it.quantity with
            | none => rfl
            | some q => rw [hq] at hone; exact absurd hone (by simp)
        | some r =>
            cases hrest : normalize_items today rest with
            | none =>
                obtain ⟨x, hx, hxq⟩ := ih hrest
                exact ⟨x, List.mem_cons_of_mem it hx, hxq⟩
            | some rs =>
                rw [hone, hrest] at h
                exact absurd h (by simp)

/-- A canonical (already-normalized) item read back as a raw record: the
fields exactly as a Python dict holding them presents them to
`normalize_items` a second time. -/
def itemToRaw (it : Item) : RawItem :=
  { name := some (.str it.name)
    quantity := some (.int it.quantity)
    category := some (.str it.category)
    expiry := it.expiry.map .dateV }

theorem normalizeOne_itemToRaw (today today2 : PDate) (it : RawItem)
    (r : Item) (h : normalizeOne today it = some r) :
    normalizeOne today2 (itemToRaw r) = some r := by
  unfold normalizeOne at h
  cases hq : normalizeQty it.quantity with
  | none => rw [hq] at h; exact absurd h (by simp)
  | some q =>
      rw [hq] at h
      simp only [Option.bind_eq_bind, Option.some_bind, Option.pure_def,
        Option.some.injEq] at h
      subst h
      unfold normalizeOne itemToRaw
      simp only [normalizeQty, qtyNeEmptyStr, if_pos, pyToInt, Option.getD_some,
        Option.bind_eq_bind, Option.some_bind, Option.some.injEq]
      have hname : pyStrip (pyStr (.str (pyStrip (pyStr (it.name.getD (.str ""))))))
          = pyStrip (pyStr (it.name.getD (.str ""))) := pyStrip_idem _
      have hcat : pyStrip (pyStr (.str (pyStrip (pyStr (it.category.getD (.str ""))))))
          = pyStrip (pyStr (it.category.getD (.str ""))) := pyStrip_idem _
      have hexp : normalizeExpiry today2
          ((normalizeExpiry today it.expiry).map ExpRaw.dateV)
          = normalizeExpiry today it.expiry := by
        cases he : normalizeExpiry today it.expiry with
        | none => rfl
        | some d => rfl
      rw [hname, hcat, hexp]
      rfl

/-- C9: normalization is idempotent — feeding the canonical records
`normalize_items` produced back through `normalize_items` (under any
current date) returns them unchanged. -/
theorem normalize_items_idempotent (today today2 : PDate)
    (items : List RawItem) (out : List Item)
    (h : normalize_items today items = some out) :
    normalize_items today2 (out.map itemToRaw) = some out := by
  induction items generalizing out with
  | nil =>
      cases h
      rfl
  | cons it rest ih =>
      unfold normalize_items at h
      cases hone : normalizeOne today it with
      | none => rw [hone] at h; exact absurd h (by simp)
      | some r =>
          cases hrest : normalize_items today rest with
          | none => rw [hone, hrest] at h; exact absurd h (by simp)
          | some rs =>
              rw [hone, hrest] at h
              cases h
              show normalize_items today2 (itemToRaw r :: rs.map itemToRaw)
                  = some (r :: rs)
              unfold normalize_items
              rw [normalizeOne_itemToRaw today today2 it r hone, ih rs hrest]

/-- Witness for C9: a record with padded name, string quantity and an
unparseable date string normalizes, and the output normalizes to itself. -/
theorem normalize_items_idempotent_witness :
    (normalize_items ⟨2025, 10, 12⟩
        [⟨some (.str " Rice "), some (.str " 2 "), some (.str "Grains"),
          some (.str "soon")⟩]
      = some [⟨"Rice", 2, "Grains", some ⟨2025, 10, 12⟩⟩]) ∧
    (normalize_items ⟨2026, 1, 1⟩
        ([⟨"Rice", 2, "Grains", some ⟨2025, 10, 12⟩⟩].map itemToRaw)
      = some [⟨"Rice", 2, "Grains", some ⟨2025, 10, 12⟩⟩]) :=
  ⟨by decide,
    normalize_items_idempotent ⟨2025, 10, 12⟩ ⟨2026, 1, 1⟩
      [⟨some (.str " Rice "), some (.str " 2 "), some (.str "Grains"),
        some (.str "soon")⟩]
      [⟨"Rice", 2, "Grains", some ⟨2025, 10, 12⟩⟩] (by decide)⟩

/-! ## Decimal rendering round-trips through the CSV integer parser -/

theorem digitVal_digitChar (k : Nat) (h : k < 10) : digitVal (digitChar k) = k := by
  interval_cases k <;> decide

theorem isDigit_digitChar (k : Nat) : (digitChar k).isDigit = true := by
  unfold digitChar
  split_ifs <;> decide

theorem natDigitsAux_foldr (fuel : Nat) : ∀ n : Nat, n ≤ fuel →
    (natDigitsAux fuel n).foldr (fun c acc => 10 * acc + digitVal c) 0 = n := by
  induction fuel with
  | zero =>
      intro n h
      have : n = 0 := by omega
      subst this
      rfl
  | succ f ih =>
      intro n h
      unfold natDigitsAux
      by_cases hn : n = 0
      · rw [if_pos hn, hn]
        rfl
      · rw [if_neg hn]
        simp only [List.foldr_cons]
        have hdiv : n / 10 ≤ f := by
          have := Nat.div_lt_self (by omega : 0 < n) (by omega : 1 < 10)
          omega
        rw [ih (n / 10) hdiv, digitVal_digitChar (n % 10) (Nat.mod_lt _ (by omega))]
        omega

theorem natDigitsAux_digits (fuel : Nat) : ∀ n : Nat,
    allDigits (natDigitsAux fuel n) = true := by
  induction fuel with
  | zero => intro n; rfl
  | succ f ih =>
      intro n
      unfold natDigitsAux
      by_cases hn : n = 0
      · rw [if_pos hn]; rfl
      · rw [if_neg hn]
        simp only [allDigits, List.all_cons, Bool.and_eq_true]
        exact ⟨isDigit_digitChar _, ih (n / 10)⟩

theorem valBE_reverse (dl : List Char) :
    valBE dl.reverse = dl.foldr (fun c acc => 10 * acc + digitVal c) 0 := by
  unfold valBE
  rw [List.foldl_reverse]

theorem valBE_encodeNat (n : Nat) : valBE (encodeNat n) = n := by
  unfold encodeNat
  by_cases h : n = 0
  · rw [if_pos h, h]; rfl
  · rw [if_neg h, valBE_reverse, natDigitsAux_foldr (n + 1) n (by omega)]

theorem allDigits_encodeNat (n : Nat) : allDigits (encodeNat n) = true := by
  unfold encodeNat
  by_cases h : n = 0
  · rw [if_pos h]; rfl
  · rw [if_neg h]
    simp only [allDigits, List.all_reverse]
    exact natDigitsAux_digits (n + 1) n

theorem encodeNat_ne_nil (n : Nat) : encodeNat n ≠ [] := by
  unfold encodeNat
  by_cases h : n = 0
  · rw [if_pos h]; simp
  · rw [if_neg h]
    simp only [ne_eq, List.reverse_eq_nil_iff]
    unfold natDigitsAux
    rw [if_neg h]
    simp

theorem digit_ne_sign (c : Char) (h : c.isDigit = true) : c ≠ '-' ∧ c ≠ '+' := by
  constructor
  · intro he; rw [he] at h; exact absurd h (by decide)
  · intro he; rw [he] at h; exact absurd h (by decide)

theorem parseIntCell_encodeInt (q : Int) (hq : 0 ≤ q) :
    parseIntCell (encodeInt q) = some q := by
  unfold encodeInt
  rw [if_neg (by omega)]
  cases hcons : encodeNat q.toNat with
  | nil => exact absurd hcons (encodeNat_ne_nil _)
  | cons c cs =>
      have hdigits : allDigits (c :: cs) = true := by
        rw [← hcons]; exact allDigits_encodeNat _
      have hc : c.isDigit = true := by
        simp only [allDigits, List.all_cons, Bool.and_eq_true] at hdigits
        exact hdigits.1
      have hval : valBE (c :: cs) = q.toNat := by
        rw [← hcons]; exact valBE_encodeNat _
      show (match (⟨c :: cs⟩ : String).data with
        | [] => none
        | c :: ds =>
            if c = '-' then
              (if ds ≠ [] ∧ allDigits ds then some (-(valBE ds : Int)) else none)
            else if c = '+' then
              (if ds ≠ [] ∧ allDigits ds then some (valBE ds : Int) else none)
            else if allDigits (c :: ds) then some (valBE (c :: ds) : Int)
            else none) = some q
      show (if c = '-' then
              (if cs ≠ [] ∧ allDigits cs then some (-(valBE cs : Int)) else none)
            else if c = '+' then
              (if cs ≠ [] ∧ allDigits cs then some (valBE cs : Int) else none)
            else if allDigits (c :: cs) then some (valBE (c :: cs) : Int)
            else none) = some q
      rw [if_neg (digit_ne_sign c hc).1, if_neg (digit_ne_sign c hc).2,
        if_pos hdigits, hval]
      congr 1
      omega

/-! ## Zero-padded dates round-trip through the date parser -/

theorem natDigitsAux_length (fuel : Nat) : ∀ n k : Nat, n < 10 ^ k →
    (natDigitsAux fuel n).length ≤ k := by
  induction fuel with
  | zero => intro n k _; simp [natDigitsAux]
  | succ f ih =>
      intro n k h
      unfold natDigitsAux
      by_cases hn : n = 0
      · rw [if_pos hn]; simp
      · rw [if_neg hn]
        cases k with
        | zero => omega
        | succ k2 =>
            simp only [List.length_cons]
            have hk : n / 10 < 10 ^ k2 := by
              rw [Nat.div_lt_iff_lt_mul (by omega : 0 < 10)]
              rw [pow_succ] at h
              omega
            have := ih (n / 10) k2 hk
            omega

theorem encodeNat_length (n k : Nat) (h1 : 1 ≤ k) (h2 : n < 10 ^ k) :
    (encodeNat n).length ≤ k := by
  unfold encodeNat
  by_cases h : n = 0
  · rw [if_pos h]; simpa using h1
  · rw [if_neg h, List.length_reverse]
    exact natDigitsAux_length (n + 1) n k h2

theorem padNat_length (k n : Nat) (h1 : 1 ≤ k) (h2 : n < 10 ^ k) :
    (padNat k n).length = k := by
  unfold padNat
  rw [List.length_append, List.length_replicate]
  have := encodeNat_length n k h1 h2
  omega

theorem allDigits_padNat (k n : Nat) : allDigits (padNat k n) = true := by
  unfold padNat allDigits
  rw [List.all_append, Bool.and_eq_true]
  refine ⟨?_, allDigits_encodeNat n⟩
  simp only [List.all_eq_true]
  intro c hc
  rw [List.eq_of_mem_replicate hc]
  decide

theorem foldl_zeros (j : Nat) :
    (List.replicate j '0').foldl (fun acc c => 10 * acc + digitVal c) 0 = 0 := by
  induction j with
  | zero => rfl
  | succ i ih => rw [List.replicate_succ, List.foldl_cons]; exact ih

theorem valBE_padNat (k n : Nat) : valBE (padNat k n) = n := by
  unfold padNat valBE
  rw [List.foldl_append, foldl_zeros]
  exact valBE_encodeNat n

theorem list_len4 (l : List Char) (h : l.length = 4) :
    ∃ a b c e, l = [a, b, c, e] := by
  rcases l with _ | ⟨a, _ | ⟨b, _ | ⟨c, _ | ⟨e, rest⟩⟩⟩⟩ <;>
    simp only [List.length_cons, List.length_nil] at h
  · omega
  · omega
  · omega
  · omega
  · have : rest = [] := List.eq_nil_of_length_eq_zero (by omega)
    exact ⟨a, b, c, e, by rw [this]⟩

theorem list_len2 (l : List Char) (h : l.length = 2) : ∃ a b, l = [a, b] := by
  rcases l with _ | ⟨a, _ | ⟨b, rest⟩⟩ <;>
    simp only [List.length_cons, List.length_nil] at h
  · omega
  · omega
  · have : rest = [] := List.eq_nil_of_length_eq_zero (by omega)
    exact ⟨a, b, by rw [this]⟩

theorem fromisoformat_shaped (a b c e f g h i : Char) (rest : List Char) :
    fromisoformat ⟨a :: b :: c :: e :: '-' :: f :: g :: '-' :: h :: i :: rest⟩
      = (if allDigits [a, b, c, e, f, g, h, i] ∧
            validDate (valBE [a, b, c, e]) (valBE [f, g]) (valBE [h, i]) ∧
            isoTimeTailOk rest then
          some ⟨valBE [a, b, c, e], valBE [f, g], valBE [h, i]⟩
        else none) := rfl

theorem daysInMonth_le_31 (y m : Nat) : daysInMonth y m ≤ 31 := by
  unfold daysInMonth
  split_ifs <;> omega

theorem fromisoformat_isoDate (d : PDate) (hv : d.Valid) :
    fromisoformat (isoDate d) = some d := by
  obtain ⟨hy1, hy2, hm1, hm2, hd1, hd2⟩ := hv
  have hy : d.y < 10 ^ 4 := by norm_num; omega
  have hm : d.m < 10 ^ 2 := by norm_num; omega
  have hdd : d.d < 10 ^ 2 := by
    have := daysInMonth_le_31 d.y d.m
    norm_num
    omega
  obtain ⟨a, b, c, e, hpad4⟩ := list_len4 (padNat 4 d.y) (padNat_length 4 d.y (by omega) hy)
  obtain ⟨f, g, hpadm⟩ := list_len2 (padNat 2 d.m) (padNat_length 2 d.m (by omega) hm)
  obtain ⟨h, i, hpadd⟩ := list_len2 (padNat 2 d.d) (padNat_length 2 d.d (by omega) hdd)
  have hiso : isoDate d
      = ⟨a :: b :: c :: e :: '-' :: f :: g :: '-' :: h :: i :: []⟩ := by
    unfold isoDate
    rw [hpad4, hpadm, hpadd]
    rfl
  rw [hiso, fromisoformat_shaped]
  have hall : allDigits [a, b, c, e, f, g, h, i] = true := by
    have h4 : allDigits [a, b, c, e] = true := by
      rw [← hpad4]; exact allDigits_padNat 4 d.y
    have hm2d : allDigits [f, g] = true := by
      rw [← hpadm]; exact allDigits_padNat 2 d.m
    have hd2d : allDigits [h, i] = true := by
      rw [← hpadd]; exact allDigits_padNat 2 d.d
    simp only [allDigits, List.all_cons, Bool.and_eq_true, List.all_nil] at *
    tauto
  have hv4 : valBE [a, b, c, e] = d.y := by rw [← hpad4]; exact valBE_padNat 4 d.y
  have hvm : valBE [f, g] = d.m := by rw [← hpadm]; exact valBE_padNat 2 d.m
  have hvd : valBE [h, i] = d.d := by rw [← hpadd]; exact valBE_padNat 2 d.d
  rw [hv4, hvm, hvd]
  rw [if_pos ⟨hall, ⟨hy1, hy2, hm1, hm2, hd1, hd2⟩, rfl⟩]

theorem isoDate_ne_empty (d : PDate) : isoDate d ≠ "" := by
  intro h
  have := congrArg String.data h
  unfold isoDate at this
  simp only [List.append_eq_nil] at this
  exact absurd this.2 (by simp)

theorem decodeDateCell_iso (d : PDate) (hv : d.Valid) (h1 : pdateLe tsMin d)
    (h2 : pdateLe d tsMax) : decodeDateCell (isoDate d) = some (some d) := by
  unfold decodeDateCell
  rw [if_neg (isoDate_ne_empty d), fromisoformat_isoDate d hv]
  show (if pdateLe tsMin d ∧ pdateLe d tsMax then some (some d) else none)
      = some (some d)
  rw [if_pos ⟨h1, h2⟩]

theorem decodeDates_map (items : List Item)
    (h : ∀ it ∈ items, goodExpiry it.expiry) :
    decodeDates (items.map fun it => encodeExpiry it.expiry)
      = some (items.map (·.expiry)) := by
  induction items with
  | nil => rfl
  | cons it rest ih =>
      have hgood := h it (List.mem_cons_self it rest)
      cases he : it.expiry with
      | none => rw [he] at hgood; exact absurd hgood (by simp [goodExpiry])
      | some d =>
          rw [he] at hgood
          obtain ⟨hv, hr1, hr2⟩ := hgood
          simp only [List.map_cons]
          unfold decodeDates
          rw [he]
          show (match decodeDateCell (encodeExpiry (some d)),
              decodeDates (rest.map fun it => encodeExpiry it.expiry) with
            | some v, some vs => some (v :: vs)
            | _, _ => none) = some (some d :: rest.map (·.expiry))
          rw [show encodeExpiry (some d) = isoDate d from rfl,
            decodeDateCell_iso d hv hr1 hr2,
            ih (fun x hx => h x (List.mem_cons_of_mem it hx))]

/-! ## Column inference on text and integer columns -/

theorem decodeStrColumn_text (cells : List String) (hne : cells ≠ [])
    (h : ∀ c ∈ cells, textCell c) :
    decodeStrColumn cells = cells.map CellVal.str := by
  obtain ⟨c0, rest, rfl⟩ :=
    List.exists_cons_of_ne_nil hne
  have h0 := h c0 (List.mem_cons_self c0 rest)
  unfold decodeStrColumn
  rw [if_neg, if_neg, if_neg]
  · refine List.map_congr_left ?_
    intro c hc
    rw [if_neg]
    rw [(h c hc).1]
    simp
  · intro hall
    rw [List.all_eq_true] at hall
    have := hall c0 (List.mem_cons_self c0 rest)
    rw [h0.2.2.2] at this
    exact absurd this (by decide)
  · intro hall
    rw [List.all_eq_true] at hall
    have := hall c0 (List.mem_cons_self c0 rest)
    rw [h0.2.2.1] at this
    exact absurd this (by decide)
  · intro hall
    rw [List.all_eq_true] at hall
    have := hall c0 (List.mem_cons_self c0 rest)
    rw [h0.2.1] at this
    exact absurd this (by decide)

theorem decodeStrColumn_ints (cells : List String)
    (h : ∀ c ∈ cells, (parseIntCell c).isSome = true) :
    decodeStrColumn cells
      = cells.map fun c => .int ((parseIntCell c).getD 0) := by
  unfold decodeStrColumn
  rw [if_pos]
  rw [List.all_eq_true]
  exact h

theorem zip4_map (items : List Item) (f g h : Item → CellVal)
    (k : Item → Option PDate) :
    zip4 (items.map f) (items.map g) (items.map h) (items.map k)
      = items.map fun it => ⟨f it, g it, h it, k it⟩ := by
  induction items with
  | nil => rfl
  | cons it rest ih =>
      simp only [List.map_cons]
      unfold zip4
      rw [ih]

end PantryPal
